import Mathlib

/-!
A shallow embedding of the `bufferring` crate: validated capacity types
(`src/capacity.rs`) and the three ring-buffer engines (`src/masking/mod.rs`,
`src/sparse_masking/mod.rs`, `src/subtracting/mod.rs`).

Machine integers (`usize`) are modelled as `Nat`; storage (a region of
`capacity` element slots, reached through raw pointers in the source) is
modelled as a total function `Nat → α`, where the value at an index that was
never written stands for the uninitialized memory the slot holds.  Each
engine's state bundles the capacity that the source reads out of its storage
value.  Enqueue and dequeue return the displaced/removed element (as in the
source) together with the updated state.
-/

/-- Models `usize::is_power_of_two` from the Rust standard library:
`true` exactly when the value is a power of two. -/
def isPowTwo (n : Nat) : Bool :=
  (List.range (n + 1)).any fun k => n == 2 ^ k

/-- `NonZeroCapacity` (capacity.rs line 15): wraps a non-zero size.  The
`NonZeroUsize` payload is modelled by its numeric value. -/
structure NonZeroCapacity where
  inner : Nat
deriving DecidableEq

/-- `NonZeroCapacityError` (capacity.rs line 77). -/
structure NonZeroCapacityError where
deriving DecidableEq

/-- `NonZeroUsize::from` for `NonZeroCapacity` (capacity.rs lines 44-48),
followed by `.get()`. -/
def NonZeroCapacity.toUsize (c : NonZeroCapacity) : Nat :=
  c.inner

/-- `impl TryFrom<usize> for NonZeroCapacity` (capacity.rs lines 56-67). -/
def nonZeroCapacityTryFrom (value : Nat) :
    Except NonZeroCapacityError NonZeroCapacity :=
  if value ≠ 0 then .ok ⟨value⟩ else .error ⟨⟩

/-- `PowerOfTwoCapacity` (capacity.rs line 87). -/
structure PowerOfTwoCapacity where
  inner : Nat
deriving DecidableEq

/-- `PowerOfTwoCapacityError` (capacity.rs line 143). -/
structure PowerOfTwoCapacityError where
deriving DecidableEq

/-- `NonZeroUsize::from` for `PowerOfTwoCapacity` (capacity.rs lines 116-120),
followed by `.get()`. -/
def PowerOfTwoCapacity.toUsize (c : PowerOfTwoCapacity) : Nat :=
  c.inner

/-- `impl TryFrom<usize> for PowerOfTwoCapacity` (capacity.rs lines 122-133). -/
def powerOfTwoCapacityTryFrom (value : Nat) :
    Except PowerOfTwoCapacityError PowerOfTwoCapacity :=
  if isPowTwo value then .ok ⟨value⟩ else .error ⟨⟩

/-- `MaskingCapacity` (capacity.rs line 153): stores `value - 1` (the mask)
instead of the capacity value itself. -/
structure MaskingCapacity where
  inner : Nat
deriving DecidableEq

/-- `MaskingCapacity::mask` (capacity.rs lines 171-173). -/
def MaskingCapacity.mask (c : MaskingCapacity) : Nat :=
  c.inner

/-- `NonZeroUsize::from` for `MaskingCapacity` (capacity.rs lines 190-196):
the stored mask is incremented to recover the capacity value; followed by
`.get()`. -/
def MaskingCapacity.toUsize (c : MaskingCapacity) : Nat :=
  c.inner + 1

/-- `impl TryFrom<usize> for MaskingCapacity` (capacity.rs lines 198-209);
`new_unchecked` (lines 162-165) stores `value - 1`. -/
def maskingCapacityTryFrom (value : Nat) :
    Except PowerOfTwoCapacityError MaskingCapacity :=
  if isPowTwo value then .ok ⟨value - 1⟩ else .error ⟨⟩

/-- Writing one element slot of a storage region: models `*ptr = item` /
`ptr.write(item)` / `ptr.replace(item)` at element index `i`. -/
def writeSlot {α : Type} (st : Nat → α) (i : Nat) (x : α) : Nat → α :=
  fun j => if j = i then x else st j

/-- `MaskingRingBuffer` (masking/mod.rs lines 11-18).  The source reads its
capacity from the storage value (`self.storage.capacity()`); here that
`MaskingCapacity` is carried in the field `scap` alongside the element
slots. -/
structure MaskingRingBuffer (α : Type) where
  index : Nat
  len : Nat
  scap : MaskingCapacity
  storage : Nat → α

/-- `MaskingRingBuffer::capacity` (masking/mod.rs lines 46-48). -/
def MaskingRingBuffer.capacity {α : Type} (b : MaskingRingBuffer α) : Nat :=
  b.scap.toUsize

/-- `MaskingRingBuffer::is_full` (masking/mod.rs lines 34-36). -/
def MaskingRingBuffer.is_full {α : Type} (b : MaskingRingBuffer α) : Bool :=
  b.len == b.capacity

/-- `MaskingRingBuffer::is_empty` (masking/mod.rs lines 39-41). -/
def MaskingRingBuffer.is_empty {α : Type} (b : MaskingRingBuffer α) : Bool :=
  b.len == 0

/-- `MaskingRingBuffer::from_empty` (masking/mod.rs lines 21-27). -/
def MaskingRingBuffer.from_empty {α : Type} (scap : MaskingCapacity)
    (storage : Nat → α) : MaskingRingBuffer α :=
  { index := 0, len := 0, scap := scap, storage := storage }

/-- `MaskingRingBuffer::enqueue` (masking/mod.rs lines 54-72). -/
def MaskingRingBuffer.enqueue {α : Type} (b : MaskingRingBuffer α) (item : α) :
    Option α × MaskingRingBuffer α :=
  let mask := b.scap.mask
  let offset := mask &&& (b.index + b.len)
  if b.is_full then
    (some (b.storage offset),
      { b with index := mask &&& (b.index + 1),
               storage := writeSlot b.storage offset item })
  else
    (none,
      { b with len := b.len + 1,
               storage := writeSlot b.storage offset item })

/-- `MaskingRingBuffer::dequeue` (masking/mod.rs lines 75-89). -/
def MaskingRingBuffer.dequeue {α : Type} (b : MaskingRingBuffer α) :
    Option α × MaskingRingBuffer α :=
  if b.is_empty then
    (none, b)
  else
    let item := b.storage b.index
    let mask := b.scap.mask
    (some item, { b with index := mask &&& (b.index + 1), len := b.len - 1 })

/-- `SparseMaskingRingBuffer` (sparse_masking/mod.rs lines 18-40): offset,
length, the artificial capacity `cap`, and the storage (whose own
`MaskingCapacity` is carried in `scap`). -/
structure SparseMaskingRingBuffer (α : Type) where
  off : Nat
  len : Nat
  cap : NonZeroCapacity
  scap : MaskingCapacity
  storage : Nat → α

/-- `SparseMaskingRingBuffer::capacity` (sparse_masking/mod.rs lines 67-69):
the artificial capacity, not the storage capacity. -/
def SparseMaskingRingBuffer.capacity {α : Type}
    (b : SparseMaskingRingBuffer α) : Nat :=
  b.cap.toUsize

/-- `SparseMaskingRingBuffer::is_full` (sparse_masking/mod.rs lines 52-54). -/
def SparseMaskingRingBuffer.is_full {α : Type}
    (b : SparseMaskingRingBuffer α) : Bool :=
  b.len == b.capacity

/-- `SparseMaskingRingBuffer::is_empty` (sparse_masking/mod.rs lines 57-59). -/
def SparseMaskingRingBuffer.is_empty {α : Type}
    (b : SparseMaskingRingBuffer α) : Bool :=
  b.len == 0

/-- `SparseMaskingRingBuffer::with_storage` (sparse_masking/mod.rs lines
140-153).  The source asserts (panics unless) the artificial capacity is at
most the storage capacity; the panic is modelled as `none`. -/
def SparseMaskingRingBuffer.with_storage {α : Type} (capacity : NonZeroCapacity)
    (scap : MaskingCapacity) (storage : Nat → α) :
    Option (SparseMaskingRingBuffer α) :=
  if capacity.toUsize ≤ scap.toUsize then
    some { off := 0, len := 0, cap := capacity, scap := scap,
           storage := storage }
  else
    none

/-- `SparseMaskingRingBuffer::enqueue` (sparse_masking/mod.rs lines 77-98). -/
def SparseMaskingRingBuffer.enqueue {α : Type} (b : SparseMaskingRingBuffer α)
    (item : α) : Option α × SparseMaskingRingBuffer α :=
  let mask := b.scap.mask
  let pos := (b.off + b.len) &&& mask
  if b.is_full then
    (some (b.storage pos),
      { b with off := (b.off + 1) &&& mask,
               storage := writeSlot b.storage pos item })
  else
    (none,
      { b with len := b.len + 1,
               storage := writeSlot b.storage pos item })

/-- `SparseMaskingRingBuffer::dequeue` (sparse_masking/mod.rs lines
111-126). -/
def SparseMaskingRingBuffer.dequeue {α : Type}
    (b : SparseMaskingRingBuffer α) : Option α × SparseMaskingRingBuffer α :=
  let mask := b.scap.mask
  if b.len = 0 then
    (none, b)
  else
    (some (b.storage b.off),
      { b with off := (b.off + 1) &&& mask, len := b.len - 1 })

/-- `SubtractingRingBuffer` (subtracting/mod.rs lines 18-34).  The storage's
`NonZeroCapacity` is carried in the field `cap`. -/
structure SubtractingRingBuffer (α : Type) where
  off : Nat
  len : Nat
  cap : NonZeroCapacity
  storage : Nat → α

/-- `SubtractingRingBuffer::capacity` (subtracting/mod.rs lines 59-61). -/
def SubtractingRingBuffer.capacity {α : Type}
    (b : SubtractingRingBuffer α) : Nat :=
  b.cap.toUsize

/-- `SubtractingRingBuffer::is_full` (subtracting/mod.rs lines 46-48). -/
def SubtractingRingBuffer.is_full {α : Type}
    (b : SubtractingRingBuffer α) : Bool :=
  b.len == b.capacity

/-- `SubtractingRingBuffer::is_empty` (subtracting/mod.rs lines 51-53). -/
def SubtractingRingBuffer.is_empty {α : Type}
    (b : SubtractingRingBuffer α) : Bool :=
  b.len == 0

/-- `SubtractingRingBuffer::with_storage` (subtracting/mod.rs lines
139-145). -/
def SubtractingRingBuffer.with_storage {α : Type} (cap : NonZeroCapacity)
    (storage : Nat → α) : SubtractingRingBuffer α :=
  { off := 0, len := 0, cap := cap, storage := storage }

/-- The write-position computation of `SubtractingRingBuffer::enqueue`
(subtracting/mod.rs lines 73-87): conditional subtraction instead of a
modulo. -/
def subPos (off len cap : Nat) : Nat :=
  if len = cap then
    off
  else
    if cap ≤ off + len then off + len - cap else off + len

/-- The offset-advance computation shared by `SubtractingRingBuffer::enqueue`
and `dequeue` (subtracting/mod.rs lines 96 and 127): `off + 1`, reset to `0`
when it reaches the capacity. -/
def subAdvance (off cap : Nat) : Nat :=
  if off + 1 = cap then off + 1 - cap else off + 1

/-- `SubtractingRingBuffer::enqueue` (subtracting/mod.rs lines 69-103). -/
def SubtractingRingBuffer.enqueue {α : Type} (b : SubtractingRingBuffer α)
    (item : α) : Option α × SubtractingRingBuffer α :=
  let pos := subPos b.off b.len b.capacity
  if b.len = b.capacity then
    (some (b.storage pos),
      { b with off := subAdvance b.off b.capacity,
               storage := writeSlot b.storage pos item })
  else
    (none,
      { b with len := b.len + 1,
               storage := writeSlot b.storage pos item })

/-- `SubtractingRingBuffer::dequeue` (subtracting/mod.rs lines 116-130). -/
def SubtractingRingBuffer.dequeue {α : Type} (b : SubtractingRingBuffer α) :
    Option α × SubtractingRingBuffer α :=
  if b.len = 0 then
    (none, b)
  else
    (some (b.storage b.off),
      { b with off := subAdvance b.off b.capacity, len := b.len - 1 })

/-!
### Ghost state

`ringList` reads off the logical contents of a ring buffer, oldest first:
element `i` lives at storage index `(off + i) % wcap`, where `wcap` is the
modulus the engine wraps indices with (the storage capacity).  `ModRB` is an
abstract modular ring buffer; each engine's arithmetic is shown to agree with
it under the engine's invariant, so the sequence lemmas are proved once.
-/

/-- The logical contents of a ring buffer, oldest first. -/
def ringList {α : Type} (wcap off len : Nat) (st : Nat → α) : List α :=
  (List.range len).map fun i => st ((off + i) % wcap)

/-- An abstract ring buffer using modular arithmetic: `wcap` is the wrap
modulus (storage capacity), `cap` the logical capacity governing fullness. -/
structure ModRB (α : Type) where
  wcap : Nat
  cap : Nat
  off : Nat
  len : Nat
  st : Nat → α

/-- Abstract enqueue: mirrors the engines' enqueue with `%` in place of
masking / conditional subtraction. -/
def ModRB.enq {α : Type} (b : ModRB α) (x : α) : Option α × ModRB α :=
  let pos := (b.off + b.len) % b.wcap
  if b.len = b.cap then
    (some (b.st pos),
      { b with off := (b.off + 1) % b.wcap, st := writeSlot b.st pos x })
  else
    (none, { b with len := b.len + 1, st := writeSlot b.st pos x })

/-- Abstract dequeue. -/
def ModRB.deq {α : Type} (b : ModRB α) : Option α × ModRB α :=
  if b.len = 0 then
    (none, b)
  else
    (some (b.st b.off), { b with off := (b.off + 1) % b.wcap, len := b.len - 1 })

/-- Invariant of the abstract ring buffer. -/
def ModRB.Inv {α : Type} (b : ModRB α) : Prop :=
  0 < b.cap ∧ b.cap ≤ b.wcap ∧ b.off < b.wcap ∧ b.len ≤ b.cap

/-- Logical contents of the abstract ring buffer. -/
def ModRB.list {α : Type} (b : ModRB α) : List α :=
  ringList b.wcap b.off b.len b.st

/-- A single ring-buffer operation, for stating properties over arbitrary
operation sequences. -/
inductive RBOp (α : Type) where
  | enq (x : α)
  | deq

/-- Run a sequence of operations on the abstract ring buffer, collecting each
operation's returned value. -/
def ModRB.runOps {α : Type} (b : ModRB α) :
    List (RBOp α) → List (Option α) × ModRB α
  | [] => ([], b)
  | .enq x :: ops =>
    let r := b.enq x
    let rest := r.2.runOps ops
    (r.1 :: rest.1, rest.2)
  | .deq :: ops =>
    let r := b.deq
    let rest := r.2.runOps ops
    (r.1 :: rest.1, rest.2)

/-- View a `MaskingRingBuffer` as an abstract modular ring buffer. -/
def MaskingRingBuffer.toMod {α : Type} (b : MaskingRingBuffer α) : ModRB α :=
  { wcap := b.capacity, cap := b.capacity, off := b.index, len := b.len,
    st := b.storage }

/-- State invariant of `MaskingRingBuffer`, as documented on its fields
(masking/mod.rs lines 12-15): the storage capacity is a power of two, the
index is below the capacity, the length is at most the capacity. -/
def MaskingRingBuffer.Inv {α : Type} (b : MaskingRingBuffer α) : Prop :=
  (∃ k, b.scap.toUsize = 2 ^ k) ∧ b.toMod.Inv

/-- Logical contents of a `MaskingRingBuffer`, oldest first. -/
def MaskingRingBuffer.items {α : Type} (b : MaskingRingBuffer α) : List α :=
  ringList b.capacity b.index b.len b.storage

/-- Run a sequence of operations on a `MaskingRingBuffer`, collecting each
operation's returned value. -/
def MaskingRingBuffer.runOps {α : Type} (b : MaskingRingBuffer α) :
    List (RBOp α) → List (Option α) × MaskingRingBuffer α
  | [] => ([], b)
  | .enq x :: ops =>
    let r := b.enqueue x
    let rest := r.2.runOps ops
    (r.1 :: rest.1, rest.2)
  | .deq :: ops =>
    let r := b.dequeue
    let rest := r.2.runOps ops
    (r.1 :: rest.1, rest.2)

/-- View a `SparseMaskingRingBuffer` as an abstract modular ring buffer:
indices wrap at the storage capacity, fullness is governed by the artificial
capacity. -/
def SparseMaskingRingBuffer.toMod {α : Type} (b : SparseMaskingRingBuffer α) :
    ModRB α :=
  { wcap := b.scap.toUsize, cap := b.capacity, off := b.off, len := b.len,
    st := b.storage }

/-- State invariant of `SparseMaskingRingBuffer`, as documented on its fields
(sparse_masking/mod.rs lines 20-39): the storage capacity is a power of two,
the artificial capacity is positive and at most the storage capacity, the
offset is below the storage capacity, the length at most the artificial
capacity. -/
def SparseMaskingRingBuffer.Inv {α : Type}
    (b : SparseMaskingRingBuffer α) : Prop :=
  (∃ k, b.scap.toUsize = 2 ^ k) ∧ b.toMod.Inv

/-- Logical contents of a `SparseMaskingRingBuffer`, oldest first (positions
wrap at the storage capacity). -/
def SparseMaskingRingBuffer.items {α : Type}
    (b : SparseMaskingRingBuffer α) : List α :=
  ringList b.scap.toUsize b.off b.len b.storage

/-- Run a sequence of operations on a `SparseMaskingRingBuffer`, collecting
each operation's returned value. -/
def SparseMaskingRingBuffer.runOps {α : Type} (b : SparseMaskingRingBuffer α) :
    List (RBOp α) → List (Option α) × SparseMaskingRingBuffer α
  | [] => ([], b)
  | .enq x :: ops =>
    let r := b.enqueue x
    let rest := r.2.runOps ops
    (r.1 :: rest.1, rest.2)
  | .deq :: ops =>
    let r := b.dequeue
    let rest := r.2.runOps ops
    (r.1 :: rest.1, rest.2)

/-- View a `SubtractingRingBuffer` as an abstract modular ring buffer. -/
def SubtractingRingBuffer.toMod {α : Type} (b : SubtractingRingBuffer α) :
    ModRB α :=
  { wcap := b.capacity, cap := b.capacity, off := b.off, len := b.len,
    st := b.storage }

/-- State invariant of `SubtractingRingBuffer`, as documented on its fields
(subtracting/mod.rs lines 20-30). -/
def SubtractingRingBuffer.Inv {α : Type} (b : SubtractingRingBuffer α) : Prop :=
  b.toMod.Inv

/-- Logical contents of a `SubtractingRingBuffer`, oldest first. -/
def SubtractingRingBuffer.items {α : Type} (b : SubtractingRingBuffer α) :
    List α :=
  ringList b.capacity b.off b.len b.storage

/-- Run a sequence of operations on a `SubtractingRingBuffer`, collecting
each operation's returned value. -/
def SubtractingRingBuffer.runOps {α : Type} (b : SubtractingRingBuffer α) :
    List (RBOp α) → List (Option α) × SubtractingRingBuffer α
  | [] => ([], b)
  | .enq x :: ops =>
    let r := b.enqueue x
    let rest := r.2.runOps ops
    (r.1 :: rest.1, rest.2)
  | .deq :: ops =>
    let r := b.dequeue
    let rest := r.2.runOps ops
    (r.1 :: rest.1, rest.2)

/-- Concrete storage initially holding `0` in every slot, standing for the
stale bytes of never-written memory in the trace below. -/
def sparseBugStorage : Nat → Nat :=
  fun _ => 0

/-- A sparse-masking ring buffer over storage of capacity `4` with artificial
capacity `3`, after enqueuing `1`, `2`, `3` from empty: it is full. -/
def sparseBugFull : SparseMaskingRingBuffer Nat :=
  ((((SparseMaskingRingBuffer.mk 0 0 ⟨3⟩ ⟨3⟩ sparseBugStorage).enqueue 1).2.enqueue
      2).2.enqueue 3).2

/-!
### Helper lemmas
-/

/-- `isPowTwo` decides "is a power of two". -/
theorem isPowTwo_iff (n : Nat) : isPowTwo n = true ↔ ∃ k, n = 2 ^ k := by
  simp only [isPowTwo, List.any_eq_true, List.mem_range, beq_iff_eq]
  constructor
  · rintro ⟨k, -, h⟩
    exact ⟨k, h⟩
  · rintro ⟨k, h⟩
    refine ⟨k, ?_, h⟩
    have := Nat.lt_two_pow k
    omega

/-- Masking with `2 ^ k - 1` is reduction modulo `2 ^ k`. -/
theorem maskAnd (k x : Nat) : (2 ^ k - 1) &&& x = x % 2 ^ k := by
  rw [Nat.and_comm]
  exact Nat.and_pow_two_sub_one_eq_mod x k

@[simp]
theorem writeSlot_self {α : Type} (st : Nat → α) (i : Nat) (x : α) :
    writeSlot st i x i = x := by
  simp [writeSlot]

theorem writeSlot_other {α : Type} (st : Nat → α) (i j : Nat) (x : α)
    (h : j ≠ i) : writeSlot st i x j = st j := by
  simp [writeSlot, h]

@[simp]
theorem ringList_length {α : Type} (wcap off len : Nat) (st : Nat → α) :
    (ringList wcap off len st).length = len := by
  simp [ringList]

theorem ringList_zero {α : Type} (wcap off : Nat) (st : Nat → α) :
    ringList wcap off 0 st = [] := by
  simp [ringList]

theorem ringList_snoc {α : Type} (wcap off len : Nat) (st : Nat → α) :
    ringList wcap off (len + 1) st =
      ringList wcap off len st ++ [st ((off + len) % wcap)] := by
  simp [ringList, List.range_succ]

theorem ringList_cons {α : Type} (wcap off len : Nat) (st : Nat → α) :
    ringList wcap off (len + 1) st =
      st (off % wcap) :: ringList wcap ((off + 1) % wcap) len st := by
  simp only [ringList, List.range_succ_eq_map, List.map_cons, List.map_map]
  refine congrArg₂ _ (by rw [Nat.add_zero]) ?_
  refine List.map_congr_left fun i _ => ?_
  have : ((off + 1) % wcap + i) % wcap = (off + 1 + i) % wcap :=
    Nat.mod_add_mod (off + 1) wcap i
  simp only [Function.comp]
  rw [this]
  exact congrArg st (by rw [Nat.succ_eq_add_one]; ring_nf)

/-- Two in-range logical indices that land on the same storage slot are
equal. -/
theorem modIdx_inj {wcap off i j : Nat} (hi : i < wcap) (hj : j < wcap)
    (h : (off + i) % wcap = (off + j) % wcap) : i = j := by
  have hme : Nat.ModEq wcap (off + i) (off + j) := h
  have hij : Nat.ModEq wcap i j := Nat.ModEq.add_left_cancel' off hme
  have hmm : i % wcap = j % wcap := hij
  rwa [Nat.mod_eq_of_lt hi, Nat.mod_eq_of_lt hj] at hmm

theorem ringList_writeSlot_out {α : Type} (wcap off len p : Nat) (st : Nat → α)
    (x : α) (h : ∀ i < len, (off + i) % wcap ≠ p) :
    ringList wcap off len (writeSlot st p x) = ringList wcap off len st := by
  simp only [ringList]
  refine List.map_congr_left fun i hi => ?_
  exact writeSlot_other _ _ _ _ (h i (List.mem_range.mp hi))

theorem ModRB.enq_notfull {α : Type} (b : ModRB α) (x : α) (hInv : b.Inv)
    (hlt : b.len < b.cap) :
    (b.enq x).1 = none ∧
    (b.enq x).2 =
      { b with
        len := b.len + 1,
        st := writeSlot b.st ((b.off + b.len) % b.wcap) x } ∧
    (b.enq x).2.list = b.list ++ [x] ∧ (b.enq x).2.Inv := by
  obtain ⟨h1, h2, h3, h4⟩ := hInv
  have hne : ¬ b.len = b.cap := Nat.ne_of_lt hlt
  have hst : b.enq x =
      (none, { b with
               len := b.len + 1,
               st := writeSlot b.st ((b.off + b.len) % b.wcap) x }) := by
    simp only [ModRB.enq, if_neg hne]
  refine ⟨by rw [hst], by rw [hst], ?_, ?_⟩
  · rw [hst]
    show ringList b.wcap b.off (b.len + 1)
        (writeSlot b.st ((b.off + b.len) % b.wcap) x) =
      ringList b.wcap b.off b.len b.st ++ [x]
    rw [ringList_snoc]
    have hlen : b.len < b.wcap := lt_of_lt_of_le hlt h2
    refine congrArg₂ _ ?_ (by rw [writeSlot_self])
    refine ringList_writeSlot_out _ _ _ _ _ _ fun i hi heq => ?_
    exact absurd (modIdx_inj (lt_trans hi hlen) hlen heq) (Nat.ne_of_lt hi)
  · rw [hst]
    exact ⟨h1, h2, h3, show b.len + 1 ≤ b.cap by omega⟩

theorem ModRB.enq_full {α : Type} (b : ModRB α) (x : α) (hInv : b.Inv)
    (he : b.len = b.cap) :
    (b.enq x).1 = some (b.st ((b.off + b.len) % b.wcap)) ∧
    (b.enq x).2 =
      { b with
        off := (b.off + 1) % b.wcap,
        st := writeSlot b.st ((b.off + b.len) % b.wcap) x } ∧
    (b.enq x).2.Inv := by
  obtain ⟨h1, h2, h3, h4⟩ := hInv
  have hw : 0 < b.wcap := lt_of_lt_of_le h1 h2
  have hst : b.enq x =
      (some (b.st ((b.off + b.len) % b.wcap)),
       { b with
         off := (b.off + 1) % b.wcap,
         st := writeSlot b.st ((b.off + b.len) % b.wcap) x }) := by
    simp only [ModRB.enq, if_pos he]
  refine ⟨by rw [hst], by rw [hst], ?_⟩
  rw [hst]
  exact ⟨h1, h2, Nat.mod_lt _ hw, h4⟩

theorem ModRB.enq_inv {α : Type} (b : ModRB α) (x : α) (hInv : b.Inv) :
    (b.enq x).2.Inv ∧ (b.enq x).2.wcap = b.wcap ∧ (b.enq x).2.cap = b.cap := by
  by_cases he : b.len = b.cap
  · obtain ⟨-, hst, hi⟩ := ModRB.enq_full b x hInv he
    rw [hst] at hi ⊢
    exact ⟨hi, rfl, rfl⟩
  · obtain ⟨-, hst, -, hi⟩ :=
      ModRB.enq_notfull b x hInv (lt_of_le_of_ne hInv.2.2.2 he)
    rw [hst] at hi ⊢
    exact ⟨hi, rfl, rfl⟩

theorem ModRB.deq_pos {α : Type} (b : ModRB α) (hInv : b.Inv)
    (hl : 0 < b.len) :
    b.deq = (some (b.st b.off),
      { b with off := (b.off + 1) % b.wcap, len := b.len - 1 }) ∧
    b.list = b.st b.off :: b.deq.2.list ∧ b.deq.2.Inv := by
  obtain ⟨h1, h2, h3, h4⟩ := hInv
  have hne : ¬ b.len = 0 := by omega
  have hw : 0 < b.wcap := lt_of_lt_of_le h1 h2
  have hst : b.deq =
      (some (b.st b.off),
       { b with off := (b.off + 1) % b.wcap, len := b.len - 1 }) := by
    simp only [ModRB.deq, if_neg hne]
  refine ⟨hst, ?_, ?_⟩
  · rw [hst]
    show ringList b.wcap b.off b.len b.st =
      b.st b.off :: ringList b.wcap ((b.off + 1) % b.wcap) (b.len - 1) b.st
    conv_lhs => rw [show b.len = (b.len - 1) + 1 by omega]
    rw [ringList_cons, Nat.mod_eq_of_lt h3]
  · rw [hst]
    exact ⟨h1, h2, Nat.mod_lt _ hw, show b.len - 1 ≤ b.cap by omega⟩

theorem ModRB.deq_inv {α : Type} (b : ModRB α) (hInv : b.Inv) :
    b.deq.2.Inv ∧ b.deq.2.wcap = b.wcap ∧ b.deq.2.cap = b.cap := by
  by_cases hl : b.len = 0
  · have hst : b.deq = (none, b) := by simp [ModRB.deq, hl]
    rw [hst]
    exact ⟨hInv, rfl, rfl⟩
  · obtain ⟨hst, -, hi⟩ := ModRB.deq_pos b hInv (Nat.pos_of_ne_zero hl)
    rw [hst] at hi ⊢
    exact ⟨hi, rfl, rfl⟩

theorem ModRB.deq_empty {α : Type} (b : ModRB α) (hl : b.len = 0) :
    b.deq = (none, b) := by
  simp [ModRB.deq, hl]

theorem ModRB.runOps_append {α : Type} (l1 l2 : List (RBOp α)) :
    ∀ b : ModRB α,
      b.runOps (l1 ++ l2) =
        ((b.runOps l1).1 ++ ((b.runOps l1).2.runOps l2).1,
         ((b.runOps l1).2.runOps l2).2) := by
  induction l1 with
  | nil => intro b; simp [ModRB.runOps]
  | cons op ops ih =>
    intro b
    cases op with
    | enq x => simp [ModRB.runOps, ih]
    | deq => simp [ModRB.runOps, ih]

theorem ModRB.runOps_inv {α : Type} (ops : List (RBOp α)) :
    ∀ b : ModRB α, b.Inv →
      (b.runOps ops).2.Inv ∧ (b.runOps ops).2.wcap = b.wcap ∧
        (b.runOps ops).2.cap = b.cap := by
  induction ops with
  | nil => intro b h; exact ⟨h, rfl, rfl⟩
  | cons op ops ih =>
    intro b h
    cases op with
    | enq x =>
      obtain ⟨hi, hw, hc⟩ := ModRB.enq_inv b x h
      obtain ⟨hi2, hw2, hc2⟩ := ih _ hi
      exact ⟨hi2, by simp [ModRB.runOps]; omega, by simp [ModRB.runOps]; omega⟩
    | deq =>
      obtain ⟨hi, hw, hc⟩ := ModRB.deq_inv b h
      obtain ⟨hi2, hw2, hc2⟩ := ih _ hi
      exact ⟨hi2, by simp [ModRB.runOps]; omega, by simp [ModRB.runOps]; omega⟩

theorem ModRB.runOps_enqs {α : Type} (es : List α) :
    ∀ b : ModRB α, b.Inv → b.len + es.length ≤ b.cap →
      (b.runOps (es.map RBOp.enq)).1 = List.replicate es.length none ∧
      (b.runOps (es.map RBOp.enq)).2.wcap = b.wcap ∧
      (b.runOps (es.map RBOp.enq)).2.cap = b.cap ∧
      (b.runOps (es.map RBOp.enq)).2.len = b.len + es.length ∧
      (b.runOps (es.map RBOp.enq)).2.list = b.list ++ es ∧
      (b.runOps (es.map RBOp.enq)).2.Inv := by
  induction es with
  | nil =>
    intro b h _
    exact ⟨rfl, rfl, rfl, rfl, by simp [ModRB.runOps], h⟩
  | cons x es ih =>
    intro b h hle
    have hlt : b.len < b.cap := by
      have := es.length
      simp only [List.length_cons] at hle
      omega
    obtain ⟨ho, hst, hlist, hi⟩ := ModRB.enq_notfull b x h hlt
    have hfields : (b.enq x).2.wcap = b.wcap ∧ (b.enq x).2.cap = b.cap ∧
        (b.enq x).2.len = b.len + 1 := by
      rw [hst]
      exact ⟨rfl, rfl, rfl⟩
    obtain ⟨hw1, hc1, hl1⟩ := hfields
    have hle2 : (b.enq x).2.len + es.length ≤ (b.enq x).2.cap := by
      rw [hl1, hc1]
      simp only [List.length_cons] at hle
      omega
    obtain ⟨ih1, ih2, ih3, ih4, ih5, ih6⟩ := ih (b.enq x).2 hi hle2
    simp only [List.map_cons, ModRB.runOps, ho]
    refine ⟨by rw [ih1]; rfl, by rw [ih2, hw1], by rw [ih3, hc1],
      by rw [ih4, hl1]; simp; omega, ?_, ih6⟩
    rw [ih5, hlist]
    simp

theorem ModRB.runOps_deqs {α : Type} (n : Nat) :
    ∀ b : ModRB α, b.Inv → b.len = n →
      (b.runOps (List.replicate n RBOp.deq)).1 = b.list.map some ∧
      (b.runOps (List.replicate n RBOp.deq)).2.len = 0 := by
  induction n with
  | zero =>
    intro b h hlen
    refine ⟨?_, hlen⟩
    show ([] : List (Option α)) = b.list.map some
    unfold ModRB.list
    rw [hlen, ringList_zero]
    rfl
  | succ n ih =>
    intro b h hlen
    have hpos : 0 < b.len := by omega
    obtain ⟨hst, hlist, hi⟩ := ModRB.deq_pos b h hpos
    have hlen2 : b.deq.2.len = n := by
      rw [hst]
      show b.len - 1 = n
      omega
    obtain ⟨ih1, ih2⟩ := ih b.deq.2 hi hlen2
    have hout : b.deq.1 = some (b.st b.off) := by rw [hst]
    simp only [List.replicate_succ, ModRB.runOps]
    refine ⟨?_, ih2⟩
    rw [hout, ih1, hlist]
    rfl

/-- Conditional subtraction computes the modular write position (the
source's reasoning in the comments of subtracting/mod.rs lines 73-87). -/
theorem subPos_eq_mod (off len cap : Nat) (hoff : off < cap)
    (hlen : len ≤ cap) : subPos off len cap = (off + len) % cap := by
  unfold subPos
  by_cases he : len = cap
  · rw [if_pos he, he, Nat.add_mod_right, Nat.mod_eq_of_lt hoff]
  · rw [if_neg he]
    by_cases hge : cap ≤ off + len
    · rw [if_pos hge, Nat.mod_eq_sub_mod hge,
        Nat.mod_eq_of_lt (show off + len - cap < cap by omega)]
    · rw [if_neg hge, Nat.mod_eq_of_lt (show off + len < cap by omega)]

/-- Conditional reset computes the modular offset advance. -/
theorem subAdvance_eq_mod (off cap : Nat) (hoff : off < cap) :
    subAdvance off cap = (off + 1) % cap := by
  unfold subAdvance
  by_cases he : off + 1 = cap
  · rw [if_pos he, he]
    simp
  · rw [if_neg he, Nat.mod_eq_of_lt (show off + 1 < cap by omega)]

theorem masking_enqueue_comm {α : Type} (b : MaskingRingBuffer α) (x : α)
    (h : b.Inv) :
    (b.enqueue x).1 = (b.toMod.enq x).1 ∧
    (b.enqueue x).2.toMod = (b.toMod.enq x).2 ∧
    (b.enqueue x).2.scap = b.scap := by
  obtain ⟨⟨k, hk⟩, hInv⟩ := h
  have hmask : b.scap.mask = 2 ^ k - 1 := by
    have h2 : b.scap.inner + 1 = 2 ^ k := hk
    simp only [MaskingCapacity.mask]
    omega
  have hand : ∀ y, b.scap.mask &&& y = y % b.capacity := by
    intro y
    rw [hmask, maskAnd]
    rw [show b.capacity = 2 ^ k from hk]
  by_cases hf : b.len = b.scap.toUsize
  · have hful : b.is_full = true := by
      simp [MaskingRingBuffer.is_full, MaskingRingBuffer.capacity, hf]
    refine ⟨?_, ?_, ?_⟩ <;>
      simp [MaskingRingBuffer.enqueue, ModRB.enq, MaskingRingBuffer.toMod,
        MaskingRingBuffer.capacity, hful, hand, hf]
  · have hful : b.is_full = false := by
      simp [MaskingRingBuffer.is_full, MaskingRingBuffer.capacity, hf]
    refine ⟨?_, ?_, ?_⟩ <;>
      simp [MaskingRingBuffer.enqueue, ModRB.enq, MaskingRingBuffer.toMod,
        MaskingRingBuffer.capacity, hful, hand, hf]

theorem masking_dequeue_comm {α : Type} (b : MaskingRingBuffer α)
    (h : b.Inv) :
    b.dequeue.1 = b.toMod.deq.1 ∧
    b.dequeue.2.toMod = b.toMod.deq.2 ∧
    b.dequeue.2.scap = b.scap := by
  obtain ⟨⟨k, hk⟩, hInv⟩ := h
  have hmask : b.scap.mask = 2 ^ k - 1 := by
    have h2 : b.scap.inner + 1 = 2 ^ k := hk
    simp only [MaskingCapacity.mask]
    omega
  have hand : ∀ y, b.scap.mask &&& y = y % b.capacity := by
    intro y
    rw [hmask, maskAnd]
    rw [show b.capacity = 2 ^ k from hk]
  by_cases hz : b.len = 0
  · have hemp : b.is_empty = true := by
      simp [MaskingRingBuffer.is_empty, hz]
    refine ⟨?_, ?_, ?_⟩ <;>
      simp [MaskingRingBuffer.dequeue, ModRB.deq, MaskingRingBuffer.toMod,
        MaskingRingBuffer.capacity, hemp, hand, hz]
  · have hemp : b.is_empty = false := by
      simp [MaskingRingBuffer.is_empty, hz]
    refine ⟨?_, ?_, ?_⟩ <;>
      simp [MaskingRingBuffer.dequeue, ModRB.deq, MaskingRingBuffer.toMod,
        MaskingRingBuffer.capacity, hemp, hand, hz]

theorem sparse_enqueue_comm {α : Type} (b : SparseMaskingRingBuffer α) (x : α)
    (h : b.Inv) :
    (b.enqueue x).1 = (b.toMod.enq x).1 ∧
    (b.enqueue x).2.toMod = (b.toMod.enq x).2 ∧
    (b.enqueue x).2.scap = b.scap ∧ (b.enqueue x).2.cap = b.cap := by
  obtain ⟨⟨k, hk⟩, hInv⟩ := h
  have hmask : b.scap.mask = 2 ^ k - 1 := by
    have h2 : b.scap.inner + 1 = 2 ^ k := hk
    simp only [MaskingCapacity.mask]
    omega
  have hand : ∀ y, y &&& b.scap.mask = y % b.scap.toUsize := by
    intro y
    rw [hmask, Nat.and_pow_two_sub_one_eq_mod]
    rw [show b.scap.toUsize = 2 ^ k from hk]
  by_cases hf : b.len = b.cap.toUsize
  · have hful : b.is_full = true := by
      simp [SparseMaskingRingBuffer.is_full, SparseMaskingRingBuffer.capacity,
        hf]
    refine ⟨?_, ?_, ?_, ?_⟩ <;>
      simp [SparseMaskingRingBuffer.enqueue, ModRB.enq,
        SparseMaskingRingBuffer.toMod, SparseMaskingRingBuffer.capacity,
        hful, hand, hf]
  · have hful : b.is_full = false := by
      simp [SparseMaskingRingBuffer.is_full, SparseMaskingRingBuffer.capacity,
        hf]
    refine ⟨?_, ?_, ?_, ?_⟩ <;>
      simp [SparseMaskingRingBuffer.enqueue, ModRB.enq,
        SparseMaskingRingBuffer.toMod, SparseMaskingRingBuffer.capacity,
        hful, hand, hf]

theorem sparse_dequeue_comm {α : Type} (b : SparseMaskingRingBuffer α)
    (h : b.Inv) :
    b.dequeue.1 = b.toMod.deq.1 ∧
    b.dequeue.2.toMod = b.toMod.deq.2 ∧
    b.dequeue.2.scap = b.scap ∧ b.dequeue.2.cap = b.cap := by
  obtain ⟨⟨k, hk⟩, hInv⟩ := h
  have hmask : b.scap.mask = 2 ^ k - 1 := by
    have h2 : b.scap.inner + 1 = 2 ^ k := hk
    simp only [MaskingCapacity.mask]
    omega
  have hand : ∀ y, y &&& b.scap.mask = y % b.scap.toUsize := by
    intro y
    rw [hmask, Nat.and_pow_two_sub_one_eq_mod]
    rw [show b.scap.toUsize = 2 ^ k from hk]
  by_cases hz : b.len = 0
  · refine ⟨?_, ?_, ?_, ?_⟩ <;>
      simp [SparseMaskingRingBuffer.dequeue, ModRB.deq,
        SparseMaskingRingBuffer.toMod, SparseMaskingRingBuffer.capacity,
        hand, hz]
  · refine ⟨?_, ?_, ?_, ?_⟩ <;>
      simp [SparseMaskingRingBuffer.dequeue, ModRB.deq,
        SparseMaskingRingBuffer.toMod, SparseMaskingRingBuffer.capacity,
        hand, hz]

theorem sub_enqueue_comm {α : Type} (b : SubtractingRingBuffer α) (x : α)
    (h : b.Inv) :
    (b.enqueue x).1 = (b.toMod.enq x).1 ∧
    (b.enqueue x).2.toMod = (b.toMod.enq x).2 ∧
    (b.enqueue x).2.cap = b.cap := by
  obtain ⟨h1, h2, h3, h4⟩ := h
  have hoff : b.off < b.capacity := h3
  have hlen : b.len ≤ b.capacity := h4
  have hpos : subPos b.off b.len b.cap.toUsize =
      (b.off + b.len) % b.cap.toUsize :=
    subPos_eq_mod b.off b.len b.capacity hoff hlen
  have hposf : subPos b.off b.cap.toUsize b.cap.toUsize =
      b.off % b.cap.toUsize := by
    have hm : b.off % b.cap.toUsize = b.off := Nat.mod_eq_of_lt hoff
    simp [subPos, hm]
  have hadv : subAdvance b.off b.cap.toUsize = (b.off + 1) % b.cap.toUsize :=
    subAdvance_eq_mod b.off b.capacity hoff
  by_cases hf : b.len = b.cap.toUsize
  · refine ⟨?_, ?_, ?_⟩ <;>
      simp [SubtractingRingBuffer.enqueue, ModRB.enq,
        SubtractingRingBuffer.toMod, SubtractingRingBuffer.capacity,
        hpos, hposf, hadv, hf]
  · refine ⟨?_, ?_, ?_⟩ <;>
      simp [SubtractingRingBuffer.enqueue, ModRB.enq,
        SubtractingRingBuffer.toMod, SubtractingRingBuffer.capacity,
        hpos, hposf, hadv, hf]

theorem sub_dequeue_comm {α : Type} (b : SubtractingRingBuffer α)
    (h : b.Inv) :
    b.dequeue.1 = b.toMod.deq.1 ∧
    b.dequeue.2.toMod = b.toMod.deq.2 ∧
    b.dequeue.2.cap = b.cap := by
  obtain ⟨h1, h2, h3, h4⟩ := h
  have hoff : b.off < b.capacity := h3
  have hadv : subAdvance b.off b.cap.toUsize = (b.off + 1) % b.cap.toUsize :=
    subAdvance_eq_mod b.off b.capacity hoff
  by_cases hz : b.len = 0
  · refine ⟨?_, ?_, ?_⟩ <;>
      simp [SubtractingRingBuffer.dequeue, ModRB.deq,
        SubtractingRingBuffer.toMod, SubtractingRingBuffer.capacity,
        hadv, hz]
  · refine ⟨?_, ?_, ?_⟩ <;>
      simp [SubtractingRingBuffer.dequeue, ModRB.deq,
        SubtractingRingBuffer.toMod, SubtractingRingBuffer.capacity,
        hadv, hz]

theorem masking_runOps_comm {α : Type} (ops : List (RBOp α)) :
    ∀ b : MaskingRingBuffer α, b.Inv →
      (b.runOps ops).1 = (b.toMod.runOps ops).1 ∧
      (b.runOps ops).2.toMod = (b.toMod.runOps ops).2 ∧
      (b.runOps ops).2.scap = b.scap ∧ (b.runOps ops).2.Inv := by
  induction ops with
  | nil =>
    intro b h
    exact ⟨rfl, rfl, rfl, h⟩
  | cons op ops ih =>
    intro b h
    cases op with
    | enq x =>
      obtain ⟨c1, c2, c3⟩ := masking_enqueue_comm b x h
      have hInv2 : (b.enqueue x).2.Inv := by
        constructor
        · rw [c3]
          exact h.1
        · rw [c2]
          exact (ModRB.enq_inv b.toMod x h.2).1
      obtain ⟨i1, i2, i3, i4⟩ := ih _ hInv2
      refine ⟨?_, ?_, ?_, i4⟩
      · simp only [MaskingRingBuffer.runOps, ModRB.runOps]
        rw [c1, i1, c2]
      · simp only [MaskingRingBuffer.runOps, ModRB.runOps]
        rw [i2, c2]
      · simp only [MaskingRingBuffer.runOps]
        rw [i3, c3]
    | deq =>
      obtain ⟨c1, c2, c3⟩ := masking_dequeue_comm b h
      have hInv2 : b.dequeue.2.Inv := by
        constructor
        · rw [c3]
          exact h.1
        · rw [c2]
          exact (ModRB.deq_inv b.toMod h.2).1
      obtain ⟨i1, i2, i3, i4⟩ := ih _ hInv2
      refine ⟨?_, ?_, ?_, i4⟩
      · simp only [MaskingRingBuffer.runOps, ModRB.runOps]
        rw [c1, i1, c2]
      · simp only [MaskingRingBuffer.runOps, ModRB.runOps]
        rw [i2, c2]
      · simp only [MaskingRingBuffer.runOps]
        rw [i3, c3]

theorem sparse_runOps_comm {α : Type} (ops : List (RBOp α)) :
    ∀ b : SparseMaskingRingBuffer α, b.Inv →
      (b.runOps ops).1 = (b.toMod.runOps ops).1 ∧
      (b.runOps ops).2.toMod = (b.toMod.runOps ops).2 ∧
      (b.runOps ops).2.scap = b.scap ∧ (b.runOps ops).2.cap = b.cap ∧
      (b.runOps ops).2.Inv := by
  induction ops with
  | nil =>
    intro b h
    exact ⟨rfl, rfl, rfl, rfl, h⟩
  | cons op ops ih =>
    intro b h
    cases op with
    | enq x =>
      obtain ⟨c1, c2, c3, c4⟩ := sparse_enqueue_comm b x h
      have hInv2 : (b.enqueue x).2.Inv := by
        constructor
        · rw [c3]
          exact h.1
        · rw [c2]
          exact (ModRB.enq_inv b.toMod x h.2).1
      obtain ⟨i1, i2, i3, i4, i5⟩ := ih _ hInv2
      refine ⟨?_, ?_, ?_, ?_, i5⟩
      · simp only [SparseMaskingRingBuffer.runOps, ModRB.runOps]
        rw [c1, i1, c2]
      · simp only [SparseMaskingRingBuffer.runOps, ModRB.runOps]
        rw [i2, c2]
      · simp only [SparseMaskingRingBuffer.runOps]
        rw [i3, c3]
      · simp only [SparseMaskingRingBuffer.runOps]
        rw [i4, c4]
    | deq =>
      obtain ⟨c1, c2, c3, c4⟩ := sparse_dequeue_comm b h
      have hInv2 : b.dequeue.2.Inv := by
        constructor
        · rw [c3]
          exact h.1
        · rw [c2]
          exact (ModRB.deq_inv b.toMod h.2).1
      obtain ⟨i1, i2, i3, i4, i5⟩ := ih _ hInv2
      refine ⟨?_, ?_, ?_, ?_, i5⟩
      · simp only [SparseMaskingRingBuffer.runOps, ModRB.runOps]
        rw [c1, i1, c2]
      · simp only [SparseMaskingRingBuffer.runOps, ModRB.runOps]
        rw [i2, c2]
      · simp only [SparseMaskingRingBuffer.runOps]
        rw [i3, c3]
      · simp only [SparseMaskingRingBuffer.runOps]
        rw [i4, c4]

theorem sub_runOps_comm {α : Type} (ops : List (RBOp α)) :
    ∀ b : SubtractingRingBuffer α, b.Inv →
      (b.runOps ops).1 = (b.toMod.runOps ops).1 ∧
      (b.runOps ops).2.toMod = (b.toMod.runOps ops).2 ∧
      (b.runOps ops).2.cap = b.cap ∧ (b.runOps ops).2.Inv := by
  induction ops with
  | nil =>
    intro b h
    exact ⟨rfl, rfl, rfl, h⟩
  | cons op ops ih =>
    intro b h
    cases op with
    | enq x =>
      obtain ⟨c1, c2, c3⟩ := sub_enqueue_comm b x h
      have hInv2 : (b.enqueue x).2.Inv := by
        show (b.enqueue x).2.toMod.Inv
        rw [c2]
        exact (ModRB.enq_inv b.toMod x h).1
      obtain ⟨i1, i2, i3, i4⟩ := ih _ hInv2
      refine ⟨?_, ?_, ?_, i4⟩
      · simp only [SubtractingRingBuffer.runOps, ModRB.runOps]
        rw [c1, i1, c2]
      · simp only [SubtractingRingBuffer.runOps, ModRB.runOps]
        rw [i2, c2]
      · simp only [SubtractingRingBuffer.runOps]
        rw [i3, c3]
    | deq =>
      obtain ⟨c1, c2, c3⟩ := sub_dequeue_comm b h
      have hInv2 : b.dequeue.2.Inv := by
        show b.dequeue.2.toMod.Inv
        rw [c2]
        exact (ModRB.deq_inv b.toMod h).1
      obtain ⟨i1, i2, i3, i4⟩ := ih _ hInv2
      refine ⟨?_, ?_, ?_, i4⟩
      · simp only [SubtractingRingBuffer.runOps, ModRB.runOps]
        rw [c1, i1, c2]
      · simp only [SubtractingRingBuffer.runOps, ModRB.runOps]
        rw [i2, c2]
      · simp only [SubtractingRingBuffer.runOps]
        rw [i3, c3]

/-!
### Claim theorems
-/

/-- Claim C8: for every usize `v`, `NonZeroCapacity::try_from(v)` fails with
`NonZeroCapacityError` exactly when `v == 0`, and `PowerOfTwoCapacity::try_from`
and `MaskingCapacity::try_from` fail with `PowerOfTwoCapacityError` exactly
when `v` is not a power of two; otherwise each returns `Ok` of the validated
capacity. -/
theorem capacity_tryFrom_spec (v : Nat) :
    (nonZeroCapacityTryFrom v = .error ⟨⟩ ↔ v = 0) ∧
    (nonZeroCapacityTryFrom v = .ok ⟨v⟩ ↔ v ≠ 0) ∧
    (powerOfTwoCapacityTryFrom v = .error ⟨⟩ ↔ ¬ ∃ k, v = 2 ^ k) ∧
    (powerOfTwoCapacityTryFrom v = .ok ⟨v⟩ ↔ ∃ k, v = 2 ^ k) ∧
    (maskingCapacityTryFrom v = .error ⟨⟩ ↔ ¬ ∃ k, v = 2 ^ k) ∧
    (maskingCapacityTryFrom v = .ok ⟨v - 1⟩ ↔ ∃ k, v = 2 ^ k) := by
  have hp := isPowTwo_iff v
  refine ⟨?_, ?_, ?_, ?_, ?_, ?_⟩
  · by_cases hz : v = 0 <;> simp [nonZeroCapacityTryFrom, hz]
  · by_cases hz : v = 0 <;> simp [nonZeroCapacityTryFrom, hz]
  · rw [← hp]
    by_cases hpw : isPowTwo v <;> simp [powerOfTwoCapacityTryFrom, hpw]
  · rw [← hp]
    by_cases hpw : isPowTwo v <;> simp [powerOfTwoCapacityTryFrom, hpw]
  · rw [← hp]
    by_cases hpw : isPowTwo v <;> simp [maskingCapacityTryFrom, hpw]
  · rw [← hp]
    by_cases hpw : isPowTwo v <;> simp [maskingCapacityTryFrom, hpw]

/-- Claim C9: converting a successfully constructed capacity back to a plain
size recovers the input exactly; `MaskingCapacity` stores `v - 1`, its
`mask()` is `v - 1`, and its reconstructed value is `v`. -/
theorem capacity_roundtrip_exact (v : Nat) :
    (∀ c, nonZeroCapacityTryFrom v = .ok c → c.toUsize = v) ∧
    (∀ c, powerOfTwoCapacityTryFrom v = .ok c → c.toUsize = v) ∧
    (∀ c, maskingCapacityTryFrom v = .ok c →
      c.inner = v - 1 ∧ c.mask = v - 1 ∧ c.toUsize = v) := by
  refine ⟨?_, ?_, ?_⟩
  · intro c hc
    unfold nonZeroCapacityTryFrom at hc
    split at hc
    · simp only [Except.ok.injEq] at hc
      subst hc
      rfl
    · exact Except.noConfusion hc
  · intro c hc
    unfold powerOfTwoCapacityTryFrom at hc
    split at hc
    · simp only [Except.ok.injEq] at hc
      subst hc
      rfl
    · exact Except.noConfusion hc
  · intro c hc
    unfold maskingCapacityTryFrom at hc
    split at hc
    case isTrue hpw =>
      simp only [Except.ok.injEq] at hc
      subst hc
      obtain ⟨k, hk⟩ := (isPowTwo_iff v).mp hpw
      have hv : 1 ≤ v := by
        rw [hk]
        exact Nat.one_le_two_pow
      refine ⟨rfl, rfl, ?_⟩
      simp only [MaskingCapacity.toUsize]
      omega
    case isFalse hpw => exact Except.noConfusion hc

/-- Witness for C9 at `v = 4`. -/
theorem capacity_roundtrip_exact_witness :
    ((⟨4⟩ : NonZeroCapacity).toUsize = 4) ∧
    ((⟨4⟩ : PowerOfTwoCapacity).toUsize = 4) ∧
    ((⟨3⟩ : MaskingCapacity).inner = 4 - 1 ∧
      (⟨3⟩ : MaskingCapacity).mask = 4 - 1 ∧
      (⟨3⟩ : MaskingCapacity).toUsize = 4) :=
  ⟨(capacity_roundtrip_exact 4).1 ⟨4⟩ rfl,
   (capacity_roundtrip_exact 4).2.1 ⟨4⟩ rfl,
   (capacity_roundtrip_exact 4).2.2 ⟨3⟩ rfl⟩

/-- Claim C4: in the subtracting engine, under `offset < capacity` and
`length ≤ capacity`, the conditional write-position rule equals
`(offset + length) % capacity` and the conditional offset advance equals
`(offset + 1) % capacity`. -/
theorem subtracting_wraparound_eq_mod (off len cap : Nat) (hoff : off < cap)
    (hlen : len ≤ cap) :
    subPos off len cap = (off + len) % cap ∧
    subAdvance off cap = (off + 1) % cap :=
  ⟨subPos_eq_mod off len cap hoff hlen, subAdvance_eq_mod off cap hoff⟩

/-- Witness for C4 at `off = 1`, `len = 3`, `cap = 3`. -/
theorem subtracting_wraparound_eq_mod_witness :
    subPos 1 3 3 = (1 + 3) % 3 ∧ subAdvance 1 3 = (1 + 1) % 3 :=
  subtracting_wraparound_eq_mod 1 3 3 (by decide) (by decide)

/-- Claim C6: in any state with `length == 0`, `dequeue()` of every engine
returns `None` and leaves the entire state unchanged. -/
theorem dequeue_empty_noop :
    (∀ (α : Type) (b : MaskingRingBuffer α), b.len = 0 →
      b.dequeue = (none, b)) ∧
    (∀ (α : Type) (b : SparseMaskingRingBuffer α), b.len = 0 →
      b.dequeue = (none, b)) ∧
    (∀ (α : Type) (b : SubtractingRingBuffer α), b.len = 0 →
      b.dequeue = (none, b)) := by
  refine ⟨?_, ?_, ?_⟩
  · intro α b h
    simp [MaskingRingBuffer.dequeue, MaskingRingBuffer.is_empty, h]
  · intro α b h
    simp [SparseMaskingRingBuffer.dequeue, h]
  · intro α b h
    simp [SubtractingRingBuffer.dequeue, h]

/-- Witness for C6 on concrete empty buffers of each engine. -/
theorem dequeue_empty_noop_witness :
    (MaskingRingBuffer.mk 0 0 ⟨3⟩ (fun _ => (0:Nat))).dequeue =
      (none, MaskingRingBuffer.mk 0 0 ⟨3⟩ (fun _ => (0:Nat))) ∧
    (SparseMaskingRingBuffer.mk 0 0 ⟨3⟩ ⟨3⟩ (fun _ => (0:Nat))).dequeue =
      (none, SparseMaskingRingBuffer.mk 0 0 ⟨3⟩ ⟨3⟩ (fun _ => (0:Nat))) ∧
    (SubtractingRingBuffer.mk 0 0 ⟨3⟩ (fun _ => (0:Nat))).dequeue =
      (none, SubtractingRingBuffer.mk 0 0 ⟨3⟩ (fun _ => (0:Nat))) :=
  ⟨dequeue_empty_noop.1 Nat _ rfl, dequeue_empty_noop.2.1 Nat _ rfl,
   dequeue_empty_noop.2.2 Nat _ rfl⟩

/-- Claim C7: `SparseMaskingRingBuffer::with_storage(capacity, storage)`
panics (modelled as `none`) precisely when the artificial capacity exceeds
the storage capacity; otherwise it returns an empty buffer with
`off = 0`, `len = 0` and `capacity()` equal to the artificial capacity. -/
theorem sparse_with_storage_spec {α : Type} (cap : NonZeroCapacity)
    (scap : MaskingCapacity) (st : Nat → α) :
    (SparseMaskingRingBuffer.with_storage cap scap st = none ↔
      scap.toUsize < cap.toUsize) ∧
    ∀ b, SparseMaskingRingBuffer.with_storage cap scap st = some b →
      b.off = 0 ∧ b.len = 0 ∧ b.cap = cap ∧ b.scap = scap ∧
      b.storage = st ∧ b.capacity = cap.toUsize ∧ b.is_empty = true := by
  unfold SparseMaskingRingBuffer.with_storage
  by_cases hle : cap.toUsize ≤ scap.toUsize
  · rw [if_pos hle]
    refine ⟨by simp; omega, ?_⟩
    intro b hb
    simp only [Option.some.injEq] at hb
    subst hb
    exact ⟨rfl, rfl, rfl, rfl, rfl, rfl, rfl⟩
  · rw [if_neg hle]
    refine ⟨by simp; omega, ?_⟩
    intro b hb
    exact Option.noConfusion hb

/-- Witness for C7: constructing with artificial capacity `2` over storage
capacity `4` gives an empty buffer with `capacity() = 2`. -/
theorem sparse_with_storage_spec_witness :
    (SparseMaskingRingBuffer.mk 0 0 ⟨2⟩ ⟨3⟩ (fun _ => (0:Nat))).off = 0 ∧
    (SparseMaskingRingBuffer.mk 0 0 ⟨2⟩ ⟨3⟩ (fun _ => (0:Nat))).len = 0 ∧
    (SparseMaskingRingBuffer.mk 0 0 ⟨2⟩ ⟨3⟩
      (fun _ => (0:Nat))).capacity = 2 := by
  have h := (sparse_with_storage_spec ⟨2⟩ ⟨3⟩ (fun _ => (0:Nat))).2
    (SparseMaskingRingBuffer.mk 0 0 ⟨2⟩ ⟨3⟩ (fun _ => (0:Nat))) rfl
  exact ⟨h.1, h.2.1, h.2.2.2.2.2.1⟩

/-- Claim C1 (refuted on the sparse-masking engine): a full sparse-masking
buffer with artificial capacity `3` over storage capacity `4`, holding
`[1, 2, 3]`, returns on `enqueue(4)` the never-written slot at storage index
`(off + len) & mask = 3` (here the stale value `0`) instead of the least
recently enqueued element `1`; the oldest element is lost without being
returned, even though the remaining contents `[2, 3, 4]` are the claimed
ones. -/
theorem sparse_full_enqueue_returns_stale :
    SparseMaskingRingBuffer.with_storage ⟨3⟩ ⟨3⟩ sparseBugStorage =
      some (SparseMaskingRingBuffer.mk 0 0 ⟨3⟩ ⟨3⟩ sparseBugStorage) ∧
    sparseBugFull.items = [1, 2, 3] ∧
    sparseBugFull.is_full = true ∧
    sparseBugFull.capacity = 3 ∧
    (sparseBugFull.enqueue 4).1 = some 0 ∧
    (sparseBugFull.enqueue 4).1 ≠ some 1 ∧
    (sparseBugFull.enqueue 4).2.items = [2, 3, 4] :=
  ⟨rfl, by decide, by decide, by decide, by decide, by decide, by decide⟩

/-- Claim C3: after every operation sequence from a freshly constructed
buffer, every engine satisfies `length ≤ capacity` and `offset < capacity`
(for the sparse-masking engine the length bound is against the artificial
capacity and the offset bound against the storage capacity), `is_full()`
holds exactly when `length = capacity`, and `is_empty()` exactly when
`length = 0`.  (Lengths and offsets are `Nat`s, so the non-negativity parts
hold by construction.) -/
theorem state_invariant_all_engines :
    (∀ (α : Type) (scap : MaskingCapacity) (st : Nat → α)
        (ops : List (RBOp α)), (∃ k, scap.toUsize = 2 ^ k) →
      ((MaskingRingBuffer.from_empty scap st).runOps ops).2.len ≤
        ((MaskingRingBuffer.from_empty scap st).runOps ops).2.capacity ∧
      ((MaskingRingBuffer.from_empty scap st).runOps ops).2.index <
        ((MaskingRingBuffer.from_empty scap st).runOps ops).2.capacity ∧
      (((MaskingRingBuffer.from_empty scap st).runOps ops).2.is_full = true ↔
        ((MaskingRingBuffer.from_empty scap st).runOps ops).2.len =
          ((MaskingRingBuffer.from_empty scap st).runOps ops).2.capacity) ∧
      (((MaskingRingBuffer.from_empty scap st).runOps ops).2.is_empty = true ↔
        ((MaskingRingBuffer.from_empty scap st).runOps ops).2.len = 0)) ∧
    (∀ (α : Type) (cap : NonZeroCapacity) (scap : MaskingCapacity)
        (st : Nat → α) (b0 : SparseMaskingRingBuffer α) (ops : List (RBOp α)),
      SparseMaskingRingBuffer.with_storage cap scap st = some b0 →
      (∃ k, scap.toUsize = 2 ^ k) → 0 < cap.toUsize →
      (b0.runOps ops).2.len ≤ (b0.runOps ops).2.capacity ∧
      (b0.runOps ops).2.off < (b0.runOps ops).2.scap.toUsize ∧
      ((b0.runOps ops).2.is_full = true ↔
        (b0.runOps ops).2.len = (b0.runOps ops).2.capacity) ∧
      ((b0.runOps ops).2.is_empty = true ↔ (b0.runOps ops).2.len = 0)) ∧
    (∀ (α : Type) (cap : NonZeroCapacity) (st : Nat → α)
        (ops : List (RBOp α)), 0 < cap.toUsize →
      ((SubtractingRingBuffer.with_storage cap st).runOps ops).2.len ≤
        ((SubtractingRingBuffer.with_storage cap st).runOps ops).2.capacity ∧
      ((SubtractingRingBuffer.with_storage cap st).runOps ops).2.off <
        ((SubtractingRingBuffer.with_storage cap st).runOps ops).2.capacity ∧
      (((SubtractingRingBuffer.with_storage cap st).runOps ops).2.is_full =
          true ↔
        ((SubtractingRingBuffer.with_storage cap st).runOps ops).2.len =
          ((SubtractingRingBuffer.with_storage cap st).runOps ops).2.capacity)
        ∧
      (((SubtractingRingBuffer.with_storage cap st).runOps ops).2.is_empty =
          true ↔
        ((SubtractingRingBuffer.with_storage cap st).runOps ops).2.len = 0)) :=
  by
  refine ⟨?_, ?_, ?_⟩
  · intro α scap st ops hpw
    have hInv0 : (MaskingRingBuffer.from_empty scap st).Inv :=
      ⟨hpw, Nat.succ_pos _, le_refl _, Nat.succ_pos _, Nat.zero_le _⟩
    obtain ⟨-, -, -, hInvF⟩ := masking_runOps_comm ops _ hInv0
    exact ⟨hInvF.2.2.2.2, hInvF.2.2.2.1,
      by simp [MaskingRingBuffer.is_full],
      by simp [MaskingRingBuffer.is_empty]⟩
  · intro α cap scap st b0 ops hb0 hpw hpos
    unfold SparseMaskingRingBuffer.with_storage at hb0
    split at hb0
    case isTrue hle =>
      simp only [Option.some.injEq] at hb0
      subst hb0
      have hInv0 : (SparseMaskingRingBuffer.mk 0 0 cap scap st).Inv :=
        ⟨hpw, hpos, hle, Nat.succ_pos _, Nat.zero_le _⟩
      obtain ⟨-, -, -, -, hInvF⟩ := sparse_runOps_comm ops _ hInv0
      exact ⟨hInvF.2.2.2.2, hInvF.2.2.2.1,
        by simp [SparseMaskingRingBuffer.is_full],
        by simp [SparseMaskingRingBuffer.is_empty]⟩
    case isFalse => exact Option.noConfusion hb0
  · intro α cap st ops hpos
    have hInv0 : (SubtractingRingBuffer.with_storage cap st).Inv :=
      ⟨hpos, le_refl _, hpos, Nat.zero_le _⟩
    obtain ⟨-, -, -, hInvF⟩ := sub_runOps_comm ops _ hInv0
    exact ⟨hInvF.2.2.2, hInvF.2.2.1,
      by simp [SubtractingRingBuffer.is_full],
      by simp [SubtractingRingBuffer.is_empty]⟩

/-- Witness for C3 on concrete fresh buffers (empty operation sequence). -/
theorem state_invariant_all_engines_witness :
    (MaskingRingBuffer.from_empty ⟨3⟩ (fun _ => (0:Nat))).len ≤
      (MaskingRingBuffer.from_empty ⟨3⟩ (fun _ => (0:Nat))).capacity ∧
    (SparseMaskingRingBuffer.mk 0 0 ⟨2⟩ ⟨3⟩ (fun _ => (0:Nat))).len ≤
      (SparseMaskingRingBuffer.mk 0 0 ⟨2⟩ ⟨3⟩ (fun _ => (0:Nat))).capacity ∧
    (SubtractingRingBuffer.with_storage ⟨3⟩ (fun _ => (0:Nat))).len ≤
      (SubtractingRingBuffer.with_storage ⟨3⟩ (fun _ => (0:Nat))).capacity := by
  refine ⟨?_, ?_, ?_⟩
  · exact (state_invariant_all_engines.1 Nat ⟨3⟩ (fun _ => 0) [] ⟨2, rfl⟩).1
  · exact (state_invariant_all_engines.2.1 Nat ⟨2⟩ ⟨3⟩ (fun _ => 0)
      (SparseMaskingRingBuffer.mk 0 0 ⟨2⟩ ⟨3⟩ (fun _ => 0)) [] rfl ⟨2, rfl⟩
      (by decide)).1
  · exact (state_invariant_all_engines.2.2 Nat ⟨3⟩ (fun _ => 0) []
      (by decide)).1

/-- FIFO at the abstract level: from a state holding no elements, enqueuing
`es` (no more than the capacity) and then dequeuing as many times yields
`none` for each enqueue and `some e1, …, some ek` for the dequeues, ending
with no elements. -/
theorem ModRB.fifo {α : Type} (b : ModRB α) (es : List α) (h : b.Inv)
    (hlen0 : b.len = 0) (hle : es.length ≤ b.cap) :
    (b.runOps (es.map RBOp.enq ++ List.replicate es.length RBOp.deq)).1 =
      List.replicate es.length none ++ es.map some ∧
    (b.runOps (es.map RBOp.enq ++ List.replicate es.length RBOp.deq)).2.len
      = 0 := by
  obtain ⟨e1, e2, e3, e4, e5, e6⟩ := ModRB.runOps_enqs es b h (by omega)
  obtain ⟨d1, d2⟩ := ModRB.runOps_deqs es.length _ e6 (by omega)
  rw [ModRB.runOps_append]
  have hbl : b.list = [] := by
    have hl : b.list.length = 0 := by
      simp [ModRB.list, hlen0]
    exact List.length_eq_zero.mp hl
  constructor
  · rw [e1, d1, e5, hbl]
    simp
  · exact d2

/-- Claim C2: for every engine starting empty, enqueuing `e1, …, ek` with
`k` at most `capacity()` and then dequeuing `k` times returns `none` for
each enqueue and `some e1, …, some ek` in order, and the buffer is empty
afterwards. -/
theorem fifo_order_all_engines :
    (∀ (α : Type) (scap : MaskingCapacity) (st : Nat → α) (es : List α),
      (∃ k, scap.toUsize = 2 ^ k) →
      es.length ≤ (MaskingRingBuffer.from_empty scap st).capacity →
      ((MaskingRingBuffer.from_empty scap st).runOps
          (es.map RBOp.enq ++ List.replicate es.length RBOp.deq)).1 =
        List.replicate es.length none ++ es.map some ∧
      ((MaskingRingBuffer.from_empty scap st).runOps
          (es.map RBOp.enq ++ List.replicate es.length RBOp.deq)).2.is_empty
        = true) ∧
    (∀ (α : Type) (cap : NonZeroCapacity) (scap : MaskingCapacity)
        (st : Nat → α) (b0 : SparseMaskingRingBuffer α) (es : List α),
      SparseMaskingRingBuffer.with_storage cap scap st = some b0 →
      (∃ k, scap.toUsize = 2 ^ k) → 0 < cap.toUsize →
      es.length ≤ b0.capacity →
      (b0.runOps (es.map RBOp.enq ++ List.replicate es.length RBOp.deq)).1 =
        List.replicate es.length none ++ es.map some ∧
      (b0.runOps
          (es.map RBOp.enq ++ List.replicate es.length RBOp.deq)).2.is_empty
        = true) ∧
    (∀ (α : Type) (cap : NonZeroCapacity) (st : Nat → α) (es : List α),
      0 < cap.toUsize →
      es.length ≤ (SubtractingRingBuffer.with_storage cap st).capacity →
      ((SubtractingRingBuffer.with_storage cap st).runOps
          (es.map RBOp.enq ++ List.replicate es.length RBOp.deq)).1 =
        List.replicate es.length none ++ es.map some ∧
      ((SubtractingRingBuffer.with_storage cap st).runOps
          (es.map RBOp.enq ++
            List.replicate es.length RBOp.deq)).2.is_empty = true) := by
  refine ⟨?_, ?_, ?_⟩
  · intro α scap st es hpw hle
    have hInv0 : (MaskingRingBuffer.from_empty scap st).Inv :=
      ⟨hpw, Nat.succ_pos _, le_refl _, Nat.succ_pos _, Nat.zero_le _⟩
    obtain ⟨c1, c2, -, -⟩ := masking_runOps_comm
      (es.map RBOp.enq ++ List.replicate es.length RBOp.deq) _ hInv0
    obtain ⟨f1, f2⟩ :=
      ModRB.fifo (MaskingRingBuffer.from_empty scap st).toMod es hInv0.2 rfl
        hle
    have hlen : ((MaskingRingBuffer.from_empty scap st).runOps
        (es.map RBOp.enq ++ List.replicate es.length RBOp.deq)).2.len = 0 :=
      (congrArg ModRB.len c2).trans f2
    constructor
    · rw [c1, f1]
    · simp [MaskingRingBuffer.is_empty, hlen]
  · intro α cap scap st b0 es hb0 hpw hpos hle
    unfold SparseMaskingRingBuffer.with_storage at hb0
    split at hb0
    case isTrue hsle =>
      simp only [Option.some.injEq] at hb0
      subst hb0
      have hInv0 : (SparseMaskingRingBuffer.mk 0 0 cap scap st).Inv :=
        ⟨hpw, hpos, hsle, Nat.succ_pos _, Nat.zero_le _⟩
      obtain ⟨c1, c2, -, -, -⟩ := sparse_runOps_comm
        (es.map RBOp.enq ++ List.replicate es.length RBOp.deq) _ hInv0
      obtain ⟨f1, f2⟩ :=
        ModRB.fifo (SparseMaskingRingBuffer.mk 0 0 cap scap st).toMod es
          hInv0.2 rfl hle
      have hlen : ((SparseMaskingRingBuffer.mk 0 0 cap scap st).runOps
          (es.map RBOp.enq ++ List.replicate es.length RBOp.deq)).2.len = 0 :=
        (congrArg ModRB.len c2).trans f2
      constructor
      · rw [c1, f1]
      · simp [SparseMaskingRingBuffer.is_empty, hlen]
    case isFalse => exact Option.noConfusion hb0
  · intro α cap st es hpos hle
    have hInv0 : (SubtractingRingBuffer.with_storage cap st).Inv :=
      ⟨hpos, le_refl _, hpos, Nat.zero_le _⟩
    obtain ⟨c1, c2, -, -⟩ := sub_runOps_comm
      (es.map RBOp.enq ++ List.replicate es.length RBOp.deq) _ hInv0
    obtain ⟨f1, f2⟩ :=
      ModRB.fifo (SubtractingRingBuffer.with_storage cap st).toMod es hInv0
        rfl hle
    have hlen : ((SubtractingRingBuffer.with_storage cap st).runOps
        (es.map RBOp.enq ++ List.replicate es.length RBOp.deq)).2.len = 0 :=
      (congrArg ModRB.len c2).trans f2
    constructor
    · rw [c1, f1]
    · simp [SubtractingRingBuffer.is_empty, hlen]

/-- Witness for C2 on concrete buffers and element lists. -/
theorem fifo_order_all_engines_witness :
    (((MaskingRingBuffer.from_empty ⟨3⟩ (fun _ => (0:Nat))).runOps
        [RBOp.enq 7, RBOp.enq 8, RBOp.deq, RBOp.deq]).1 =
      [none, none, some 7, some 8] ∧
      ((MaskingRingBuffer.from_empty ⟨3⟩ (fun _ => (0:Nat))).runOps
        [RBOp.enq 7, RBOp.enq 8, RBOp.deq, RBOp.deq]).2.is_empty = true) ∧
    (((SparseMaskingRingBuffer.mk 0 0 ⟨3⟩ ⟨3⟩ (fun _ => (0:Nat))).runOps
        [RBOp.enq 7, RBOp.enq 8, RBOp.enq 9, RBOp.deq, RBOp.deq,
          RBOp.deq]).1 =
      [none, none, none, some 7, some 8, some 9] ∧
      ((SparseMaskingRingBuffer.mk 0 0 ⟨3⟩ ⟨3⟩ (fun _ => (0:Nat))).runOps
        [RBOp.enq 7, RBOp.enq 8, RBOp.enq 9, RBOp.deq, RBOp.deq,
          RBOp.deq]).2.is_empty = true) ∧
    (((SubtractingRingBuffer.with_storage ⟨3⟩ (fun _ => (0:Nat))).runOps
        [RBOp.enq 7, RBOp.enq 8, RBOp.enq 9, RBOp.deq, RBOp.deq,
          RBOp.deq]).1 =
      [none, none, none, some 7, some 8, some 9] ∧
      ((SubtractingRingBuffer.with_storage ⟨3⟩ (fun _ => (0:Nat))).runOps
        [RBOp.enq 7, RBOp.enq 8, RBOp.enq 9, RBOp.deq, RBOp.deq,
          RBOp.deq]).2.is_empty = true) :=
  ⟨fifo_order_all_engines.1 Nat ⟨3⟩ (fun _ => 0) [7, 8] ⟨2, rfl⟩ (by decide),
   fifo_order_all_engines.2.1 Nat ⟨3⟩ ⟨3⟩ (fun _ => 0)
     (SparseMaskingRingBuffer.mk 0 0 ⟨3⟩ ⟨3⟩ (fun _ => 0)) [7, 8, 9] rfl
     ⟨2, rfl⟩ (by decide) (by decide),
   fifo_order_all_engines.2.2 Nat ⟨3⟩ (fun _ => 0) [7, 8, 9] (by decide)
     (by decide)⟩

/-- Claim C5: for a sparse-masking buffer built over power-of-two storage
with artificial capacity `cap`, `capacity()` returns `cap` (not the storage
capacity), and after any operation sequence `is_full()` holds exactly when
`cap` elements are held and is `false` whenever fewer are held. -/
theorem sparse_fullness_artificial_capacity {α : Type} (cap : NonZeroCapacity)
    (scap : MaskingCapacity) (st : Nat → α) (b0 : SparseMaskingRingBuffer α)
    (ops : List (RBOp α))
    (hb0 : SparseMaskingRingBuffer.with_storage cap scap st = some b0)
    (hpw : ∃ k, scap.toUsize = 2 ^ k) (hpos : 0 < cap.toUsize) :
    (b0.runOps ops).2.capacity = cap.toUsize ∧
    ((b0.runOps ops).2.is_full = true ↔
      ((b0.runOps ops).2.items).length = cap.toUsize) ∧
    (((b0.runOps ops).2.items).length < cap.toUsize →
      (b0.runOps ops).2.is_full = false) := by
  unfold SparseMaskingRingBuffer.with_storage at hb0
  split at hb0
  case isTrue hle =>
    simp only [Option.some.injEq] at hb0
    subst hb0
    have hInv0 : (SparseMaskingRingBuffer.mk 0 0 cap scap st).Inv :=
      ⟨hpw, hpos, hle, Nat.succ_pos _, Nat.zero_le _⟩
    obtain ⟨-, -, -, hcap, -⟩ := sparse_runOps_comm ops _ hInv0
    have hcap2 : ((SparseMaskingRingBuffer.mk 0 0 cap scap st).runOps
        ops).2.capacity = cap.toUsize := by
      unfold SparseMaskingRingBuffer.capacity
      rw [hcap]
    have hlen : (((SparseMaskingRingBuffer.mk 0 0 cap scap st).runOps
        ops).2.items).length =
        ((SparseMaskingRingBuffer.mk 0 0 cap scap st).runOps ops).2.len := by
      simp [SparseMaskingRingBuffer.items]
    have hiff : ((SparseMaskingRingBuffer.mk 0 0 cap scap st).runOps
        ops).2.is_full = true ↔
        (((SparseMaskingRingBuffer.mk 0 0 cap scap st).runOps
          ops).2.items).length = cap.toUsize := by
      rw [hlen]
      simp [SparseMaskingRingBuffer.is_full, hcap2]
    refine ⟨hcap2, hiff, fun hlt => ?_⟩
    cases hf : ((SparseMaskingRingBuffer.mk 0 0 cap scap st).runOps
        ops).2.is_full
    · rfl
    · exfalso
      have := hiff.mp hf
      omega
  case isFalse => exact Option.noConfusion hb0

/-- Witness for C5 on a concrete buffer (artificial capacity `3`, storage
capacity `4`). -/
theorem sparse_fullness_artificial_capacity_witness :
    (SparseMaskingRingBuffer.mk 0 0 ⟨3⟩ ⟨3⟩ (fun _ => (0:Nat))).capacity = 3 ∧
    ((SparseMaskingRingBuffer.mk 0 0 ⟨3⟩ ⟨3⟩
        (fun _ => (0:Nat))).is_full = true ↔
      ((SparseMaskingRingBuffer.mk 0 0 ⟨3⟩ ⟨3⟩
        (fun _ => (0:Nat))).items).length = 3) := by
  have h := sparse_fullness_artificial_capacity ⟨3⟩ ⟨3⟩ (fun _ => (0:Nat))
    (SparseMaskingRingBuffer.mk 0 0 ⟨3⟩ ⟨3⟩ (fun _ => 0)) [] rfl ⟨2, rfl⟩
    (by decide)
  exact ⟨h.1, h.2.1⟩

/-- Claim C10: a sparse-masking buffer whose artificial capacity equals its
(power-of-two) storage capacity is observationally equivalent to a masking
buffer over the same storage: every operation sequence produces the same
return values, and `capacity()`, `is_full()`, `is_empty()` agree. -/
theorem sparse_degenerate_equals_masking {α : Type} (cap : NonZeroCapacity)
    (scap : MaskingCapacity) (st : Nat → α) (s0 : SparseMaskingRingBuffer α)
    (ops : List (RBOp α))
    (hs0 : SparseMaskingRingBuffer.with_storage cap scap st = some s0)
    (hpw : ∃ k, scap.toUsize = 2 ^ k)
    (hcap : cap.toUsize = scap.toUsize) :
    ((MaskingRingBuffer.from_empty scap st).runOps ops).1 =
      (s0.runOps ops).1 ∧
    ((MaskingRingBuffer.from_empty scap st).runOps ops).2.capacity =
      (s0.runOps ops).2.capacity ∧
    ((MaskingRingBuffer.from_empty scap st).runOps ops).2.is_full =
      (s0.runOps ops).2.is_full ∧
    ((MaskingRingBuffer.from_empty scap st).runOps ops).2.is_empty =
      (s0.runOps ops).2.is_empty := by
  unfold SparseMaskingRingBuffer.with_storage at hs0
  split at hs0
  case isTrue hle =>
    simp only [Option.some.injEq] at hs0
    subst hs0
    have hInvM : (MaskingRingBuffer.from_empty scap st).Inv :=
      ⟨hpw, Nat.succ_pos _, le_refl _, Nat.succ_pos _, Nat.zero_le _⟩
    have hInvS : (SparseMaskingRingBuffer.mk 0 0 cap scap st).Inv :=
      ⟨hpw, by show 0 < cap.toUsize; rw [hcap]; exact Nat.succ_pos _, hle,
        Nat.succ_pos _, Nat.zero_le _⟩
    have htm : (MaskingRingBuffer.from_empty scap st).toMod =
        (SparseMaskingRingBuffer.mk 0 0 cap scap st).toMod := by
      simp [MaskingRingBuffer.toMod, SparseMaskingRingBuffer.toMod,
        MaskingRingBuffer.from_empty, MaskingRingBuffer.capacity,
        SparseMaskingRingBuffer.capacity, hcap]
    obtain ⟨cm1, cm2, -, -⟩ := masking_runOps_comm ops _ hInvM
    obtain ⟨cs1, cs2, -, -, -⟩ := sparse_runOps_comm ops _ hInvS
    have hfin : ((MaskingRingBuffer.from_empty scap st).runOps ops).2.toMod =
        ((SparseMaskingRingBuffer.mk 0 0 cap scap st).runOps ops).2.toMod :=
      by
      rw [cm2, cs2, htm]
    have hlenEq : ((MaskingRingBuffer.from_empty scap st).runOps ops).2.len =
        ((SparseMaskingRingBuffer.mk 0 0 cap scap st).runOps ops).2.len :=
      congrArg ModRB.len hfin
    have hcapEq :
        ((MaskingRingBuffer.from_empty scap st).runOps ops).2.capacity =
        ((SparseMaskingRingBuffer.mk 0 0 cap scap st).runOps
          ops).2.capacity :=
      congrArg ModRB.cap hfin
    refine ⟨?_, hcapEq, ?_, ?_⟩
    · rw [cm1, cs1, htm]
    · simp only [MaskingRingBuffer.is_full, SparseMaskingRingBuffer.is_full]
      rw [hlenEq, hcapEq]
    · simp only [MaskingRingBuffer.is_empty, SparseMaskingRingBuffer.is_empty]
      rw [hlenEq]
  case isFalse => exact Option.noConfusion hs0

/-- Witness for C10 with storage capacity `4` and artificial capacity `4`. -/
theorem sparse_degenerate_equals_masking_witness :
    ((MaskingRingBuffer.from_empty ⟨3⟩ (fun _ => (0:Nat))).runOps
        [RBOp.enq 7]).1 =
      ((SparseMaskingRingBuffer.mk 0 0 ⟨4⟩ ⟨3⟩ (fun _ => (0:Nat))).runOps
        [RBOp.enq 7]).1 ∧
    ((MaskingRingBuffer.from_empty ⟨3⟩ (fun _ => (0:Nat))).runOps
        [RBOp.enq 7]).2.capacity =
      ((SparseMaskingRingBuffer.mk 0 0 ⟨4⟩ ⟨3⟩ (fun _ => (0:Nat))).runOps
        [RBOp.enq 7]).2.capacity ∧
    ((MaskingRingBuffer.from_empty ⟨3⟩ (fun _ => (0:Nat))).runOps
        [RBOp.enq 7]).2.is_full =
      ((SparseMaskingRingBuffer.mk 0 0 ⟨4⟩ ⟨3⟩ (fun _ => (0:Nat))).runOps
        [RBOp.enq 7]).2.is_full ∧
    ((MaskingRingBuffer.from_empty ⟨3⟩ (fun _ => (0:Nat))).runOps
        [RBOp.enq 7]).2.is_empty =
      ((SparseMaskingRingBuffer.mk 0 0 ⟨4⟩ ⟨3⟩ (fun _ => (0:Nat))).runOps
        [RBOp.enq 7]).2.is_empty :=
  sparse_degenerate_equals_masking ⟨4⟩ ⟨3⟩ (fun _ => 0)
    (SparseMaskingRingBuffer.mk 0 0 ⟨4⟩ ⟨3⟩ (fun _ => 0)) [RBOp.enq 7] rfl
    ⟨2, rfl⟩ rfl

/-- Witness for C8 at `v = 3` (non-zero, not a power of two) and `v = 4`
(a power of two). -/
theorem capacity_tryFrom_spec_witness :
    nonZeroCapacityTryFrom 3 = .ok ⟨3⟩ ∧
    powerOfTwoCapacityTryFrom 3 = .error ⟨⟩ ∧
    nonZeroCapacityTryFrom 0 = .error ⟨⟩ ∧
    maskingCapacityTryFrom 4 = .ok ⟨3⟩ :=
  ⟨(capacity_tryFrom_spec 3).2.1.mpr (by decide),
   (capacity_tryFrom_spec 3).2.2.1.mpr
     (fun h => absurd ((isPowTwo_iff 3).mpr h) (by decide)),
   (capacity_tryFrom_spec 0).1.mpr rfl,
   (capacity_tryFrom_spec 4).2.2.2.2.2.mpr ⟨2, rfl⟩⟩
